import Mathlib

/-!
Verification development for the game-library-service migration scripts.

The repository's core consists of:
* `scripts/conv_galleries.py` — per project group, reads `(gallery_id, position)`
  rows sorted by `position` and writes `next_id` / `prev_id` links for each
  adjacent pair (the spec's PositionLinker);
* `scripts/id_to_seq.py` — per project group, reads `(gallery_id, next_id)`
  rows sorted by `prev_id NULLS FIRST`, takes the first row as the walk's
  start, follows `next_id` through a dict keyed by `gallery_id`, and writes a
  single-byte `sort_key` `round((i+1)/(L+1)*255)` for the i-th walked row
  (the spec's ChainWalker and KeySpacer);
* `scripts/proj_slug.py` — the slug string transform.

The embedding below models one group's rows as a `List Row` (a snapshot of the
store), SQL `ORDER BY` as a stable insertion sort on the relevant column, SQL
`UPDATE ... WHERE gallery_id = ?` as a map over the row list, Python's dict
`m = {g[0]: i for i, g in enumerate(x)}` followed by `x[m[j]]` as a
last-occurrence lookup by id, the unbounded Python `while` loop as a
fuel-indexed recursion (`none` = the loop is still running after `fuel`
iterations), and Python exceptions (`IndexError` from `x[0]` on an empty
list, `KeyError` from `m[j]`) as an error type.  Python's `round` on the
values computed here is modelled by exact rational banker's rounding
(`pyRoundNat`); for every concrete input used in the theorems below the
intermediate floats are dyadic rationals, so CPython's float evaluation is
exact and agrees with this model.
-/

/-- One row of the `galleries` / `galleries_history` table, restricted to the
columns the scripts touch: `gallery_id`, `prev_id`, `next_id`, `position`,
`sort_key`. -/
structure Row where
  id : Nat
  prev : Option Nat
  next : Option Nat
  pos : Int
  key : Option (List Nat)
deriving DecidableEq, Repr

/-- A link-write issued by `conv_galleries.py`:
`UPDATE t SET next_id = v WHERE gallery_id = g` or the same for `prev_id`. -/
inductive Write where
  | setNext (g v : Nat)
  | setPrev (g v : Nat)
deriving DecidableEq, Repr

/-- The `gallery_id` in the `WHERE` clause of a write. -/
def Write.target : Write → Nat
  | .setNext g _ => g
  | .setPrev g _ => g

/-- Effect of one `UPDATE ... WHERE gallery_id = ?` on one row. -/
def applyW1 (r : Row) : Write → Row
  | .setNext g v => if r.id = g then { r with next := some v } else r
  | .setPrev g v => if r.id = g then { r with prev := some v } else r

/-- Effect of one write on the whole group snapshot. -/
def applyWrite (rows : List Row) (w : Write) : List Row :=
  rows.map (fun r => applyW1 r w)

/-- Effect of a write sequence on the group snapshot. -/
def applyWrites (rows : List Row) (ws : List Write) : List Row :=
  ws.foldl applyWrite rows

/-- Effect of a write sequence on a single row. -/
def applyWritesRow (r : Row) (ws : List Write) : Row :=
  ws.foldl applyW1 r

/-- `ORDER BY position` comparison. -/
def posLe (a b : Row) : Prop := a.pos ≤ b.pos

instance : DecidableRel posLe := fun a b => (inferInstance : Decidable (a.pos ≤ b.pos))

instance : IsTotal Row posLe := ⟨fun a b => Int.le_total a.pos b.pos⟩

instance : IsTrans Row posLe := ⟨fun _ _ _ hab hbc => Int.le_trans hab hbc⟩

/-- `NULLS FIRST` ascending order on a nullable integer column. -/
def optNatLe : Option Nat → Option Nat → Prop
  | none, _ => True
  | some _, none => False
  | some a, some b => a ≤ b

instance : DecidableRel optNatLe := fun x y =>
  match x, y with
  | none, _ => isTrue trivial
  | some _, none => isFalse id
  | some a, some b => (inferInstance : Decidable (a ≤ b))

/-- `ORDER BY prev_id NULLS FIRST` comparison. -/
def prevLe (a b : Row) : Prop := optNatLe a.prev b.prev

instance : DecidableRel prevLe := fun a b => (inferInstance : Decidable (optNatLe a.prev b.prev))

instance : IsTotal Row prevLe :=
  ⟨fun a b => by
    unfold prevLe optNatLe
    rcases a.prev with _ | x <;> rcases b.prev with _ | y
    · exact Or.inl trivial
    · exact Or.inl trivial
    · exact Or.inr trivial
    · exact Nat.le_total x y⟩

instance : IsTrans Row prevLe :=
  ⟨fun a b c hab hbc => by
    unfold prevLe optNatLe at hab hbc ⊢
    revert hab hbc
    rcases a.prev with _ | x <;> rcases b.prev with _ | y <;> rcases c.prev with _ | z <;>
        intro hab hbc <;>
      first
        | exact trivial
        | exact hab.elim
        | exact hbc.elim
        | exact Nat.le_trans hab hbc⟩

/-- `SELECT ... ORDER BY position` over the group (a stable sort; positions are
distinct in every input considered, so any `ORDER BY position` result agrees
with this one). -/
def sortByPos (rows : List Row) : List Row := List.insertionSort posLe rows

/-- `SELECT ... ORDER BY prev_id NULLS FIRST` over the group. -/
def sortByPrev (rows : List Row) : List Row := List.insertionSort prevLe rows

/-- The ascending `next_id`-write loop of `conv_galleries.py`:
`i = 1; while i < len(gi): UPDATE SET next_id = gi[i] WHERE gallery_id = gi[i-1]`. -/
def nextWrites : List Row → List Write
  | a :: b :: rest => .setNext a.id b.id :: nextWrites (b :: rest)
  | _ => []

/-- The descending `prev_id`-write loop of `conv_galleries.py`, listed here in
ascending order; the script issues exactly these writes in reverse. -/
def prevWritesFwd : List Row → List Write
  | a :: b :: rest => .setPrev b.id a.id :: prevWritesFwd (b :: rest)
  | _ => []

/-- The full write sequence `conv_galleries.py` issues for a sorted group:
the ascending `next_id` loop followed by the descending `prev_id` loop. -/
def linkWrites (gi : List Row) : List Write :=
  nextWrites gi ++ (prevWritesFwd gi).reverse

/-- The writes `conv_galleries.py` issues for one group snapshot. -/
def convWrites (rows : List Row) : List Write :=
  linkWrites (sortByPos rows)

/-- One group of `conv_galleries.py`'s `run`: sort by `position`, issue the
link writes, and return the updated group snapshot. -/
def positionLinkerRun (rows : List Row) : List Row :=
  applyWrites rows (convWrites rows)

/-- Python exceptions the walk in `id_to_seq.py` can raise: `IndexError` from
`x[0]` on an empty group, `KeyError` from `m[...]` on a dangling `next_id`. -/
inductive PyErr where
  | indexError
  | keyError
deriving DecidableEq, Repr

instance {ε α : Type} [DecidableEq ε] [DecidableEq α] : DecidableEq (Except ε α) := fun a b =>
  match a, b with
  | .error x, .error y =>
    if h : x = y then isTrue (by rw [h]) else isFalse (by intro hc; cases hc; exact h rfl)
  | .error _, .ok _ => isFalse (fun hc => Except.noConfusion hc)
  | .ok _, .error _ => isFalse (fun hc => Except.noConfusion hc)
  | .ok x, .ok y =>
    if h : x = y then isTrue (by rw [h]) else isFalse (by intro hc; cases hc; exact h rfl)

/-- `x[m[j]]` where `m = {g[0]: i for i, g in enumerate(x)}`: the last row of
`x` whose `gallery_id` is `j` (later duplicates overwrite earlier dict
entries); `none` models the `KeyError` raised when `j` is absent. -/
def pyLookup (x : List Row) (j : Nat) : Option Row :=
  x.reverse.find? (fun g => g.id == j)

/-- The walk loop of `id_to_seq.py`:
`while glist[-1][1] != None: glist.append(x[m[glist[-1][1]]])`.
`rev` holds the already-accumulated rows in reverse, `cur` is `glist[-1]`, and
the result is `none` while the loop is still running after `fuel` iterations
(the Python loop is unbounded). -/
def walkAux (x : List Row) : List Row → Row → Nat → Option (Except PyErr (List Row))
  | _, _, 0 => none
  | rev, cur, fuel + 1 =>
    match cur.next with
    | none => some (Except.ok ((cur :: rev).reverse))
    | some j =>
      match pyLookup x j with
      | none => some (Except.error PyErr.keyError)
      | some g => walkAux x (cur :: rev) g fuel

/-- The chain reconstruction of `id_to_seq.py` for one group: sort by
`prev_id NULLS FIRST`, start from the first row (`glist.append(x[0])`,
`IndexError` when the group is empty), and follow `next_id`. -/
def chainWalkGroup (rows : List Row) (fuel : Nat) : Option (Except PyErr (List Row)) :=
  match sortByPrev rows with
  | [] => some (Except.error PyErr.indexError)
  | h :: t => walkAux (h :: t) [] h fuel

/-- Python 3 `round` (banker's rounding, half to even) of the exact rational
`num / den`.  `id_to_seq.py` computes `round((i + 1) / slots * 255)` in float
arithmetic; on every input appearing in a theorem below the float values are
dyadic rationals represented exactly, so the float result coincides with this
exact rational rounding. -/
def pyRoundNat (num den : Nat) : Nat :=
  if 2 * (num % den) < den then num / den
  else if den < 2 * (num % den) then num / den + 1
  else if (num / den) % 2 = 0 then num / den else num / den + 1

/-- The key-assignment comprehension of `id_to_seq.py`:
`slots = len(glist) + 1;`
`sk = [(bytes([round((i + 1) / slots * 255)]), g[0]) for i, g in enumerate(glist)]`.
Each entry is the written `(sort_key, gallery_id)` pair; `bytes([k])` is the
single-byte sequence `[k]`. -/
def spacerKeys (glist : List Row) : List (List Nat × Nat) :=
  glist.enum.map (fun p => ([pyRoundNat ((p.1 + 1) * 255) (glist.length + 1)], p.2.id))

/-- One group of `id_to_seq.py`'s `run`: reconstruct the chain, then compute
the `sort_key` writes.  The result is the list of `(sort_key, gallery_id)`
pairs passed to `UPDATE galleries_history SET sort_key = ? WHERE gallery_id = ?`. -/
def idToSeqGroup (rows : List Row) (fuel : Nat) : Option (Except PyErr (List (List Nat × Nat))) :=
  match chainWalkGroup rows fuel with
  | none => none
  | some (Except.error e) => some (Except.error e)
  | some (Except.ok glist) => some (Except.ok (spacerKeys glist))

/-- Byte-sequence lexicographic strict comparison (`memcmp`-style, shorter
prefix first), the order in which `sort_key` blobs compare. -/
def bytesLtB : List Nat → List Nat → Bool
  | [], [] => false
  | [], _ :: _ => true
  | _ :: _, [] => false
  | a :: as, b :: bs => if a < b then true else if b < a then false else bytesLtB as bs

/-- Whether a list of byte-sequence keys is strictly increasing pairwise. -/
def strictKeys : List (List Nat) → Bool
  | a :: b :: rest => bytesLtB a b && strictKeys (b :: rest)
  | _ => true

/-- The keys written by a completed `id_to_seq.py` group run (empty when the
run failed or is still looping). -/
def runKeys : Option (Except PyErr (List (List Nat × Nat))) → List (List Nat)
  | some (Except.ok l) => l.map Prod.fst
  | _ => []

/-- Whether an `id_to_seq.py` group run completed without an exception. -/
def isOkRun : Option (Except PyErr (List (List Nat × Nat))) → Bool
  | some (Except.ok _) => true
  | _ => false

/-- A fresh legacy row as `conv_galleries.py` finds it: `prev_id`, `next_id`
and `sort_key` are NULL, only `gallery_id` and `position` are populated. -/
def mkRow (p : Nat × Int) : Row :=
  { id := p.1, prev := none, next := none, pos := p.2, key := none }

/-- A group snapshot built from `(gallery_id, position)` pairs. -/
def freshRows (ps : List (Nat × Int)) : List Row := ps.map mkRow

/-- The characters Python's `\s` matches in `proj_slug.py`'s
`ws = re.compile('\\s')` for the ASCII inputs considered here (the regex also
matches other Unicode whitespace, none of which occurs in any input below). -/
def isPyWs (c : Char) : Bool :=
  c == ' ' || c == Char.ofNat 9 || c == Char.ofNat 10 ||
  c == Char.ofNat 11 || c == Char.ofNat 12 || c == Char.ofNat 13

/-- The fixed punctuation class of `proj_slug.py`:
`[:\/?#\[\]@!$&'()*+,;=%"<>\\^`{}|]` (as a character set; the escapes in the
Python source denote the plain characters). -/
def specialChars : List Char :=
  [':', '/', '?', '#', '[', ']', '@', '!', '$', '&', Char.ofNat 39,
   '(', ')', '*', '+', ',', ';', '=', '%', Char.ofNat 34, '<', '>',
   '\\', '^', Char.ofNat 96, Char.ofNat 123, Char.ofNat 125, '|']

def isSpecial (c : Char) : Bool := specialChars.contains c

/-- `ws.sub('-', n)`: replace every whitespace character with a hyphen. -/
def subWs (s : List Char) : List Char :=
  s.map (fun c => if isPyWs c then '-' else c)

/-- `special.sub('', s)`: delete every character of the punctuation class. -/
def stripSpecial (s : List Char) : List Char :=
  s.filter (fun c => !isSpecial c)

/-- `ch.sub('-', s)` with `ch = re.compile('-+')`: collapse hyphen runs to a
single hyphen. -/
def collapseH : List Char → List Char
  | [] => []
  | [c] => [c]
  | a :: b :: rest =>
    if a == '-' && b == '-' then collapseH (b :: rest) else a :: collapseH (b :: rest)

/-- `s.strip('-')`: trim leading and trailing hyphens. -/
def stripH (s : List Char) : List Char :=
  ((s.dropWhile (fun c => c == '-')).reverse.dropWhile (fun c => c == '-')).reverse

/-- `proj_slug` from `scripts/proj_slug.py`, as a character-list transform. -/
def proj_slug (n : List Char) : List Char :=
  stripH (collapseH (stripSpecial (subWs n)))

/-- A well-formed 3-chain group (`1 → 2 → 3`), already linked. -/
def threeChain : List Row :=
  [{ id := 1, prev := none, next := some 2, pos := 1, key := none },
   { id := 2, prev := some 1, next := some 3, pos := 2, key := none },
   { id := 3, prev := some 2, next := none, pos := 3, key := none }]

/-- A malformed group in which two distinct rows both have `prev_id = NULL`. -/
def twoHeadRows : List Row :=
  [{ id := 1, prev := none, next := some 2, pos := 1, key := none },
   { id := 2, prev := none, next := none, pos := 2, key := none }]

/-- A malformed group in which no row has `prev_id = NULL` (the single row
points at itself via `prev_id`) yet the walk still succeeds. -/
def noHeadRows : List Row :=
  [{ id := 5, prev := some 5, next := none, pos := 1, key := none }]

/-- A two-element `next_id` cycle reachable from the walk's start. -/
def cycRows : List Row :=
  [{ id := 1, prev := some 2, next := some 2, pos := 1, key := none },
   { id := 2, prev := some 1, next := some 1, pos := 2, key := none }]

/-- A group of three rows whose chain from the head covers only rows 1 and 2;
row 3 is an orphan (its `prev_id` dangles and nothing points at it). -/
def orphanRows : List Row :=
  [{ id := 1, prev := none, next := some 2, pos := 1, key := none },
   { id := 2, prev := some 1, next := none, pos := 2, key := none },
   { id := 3, prev := some 99, next := none, pos := 3, key := none }]

/-- A group whose second row carries a dangling `prev_id` reference (`77` is
no row's id); the chain itself walks fine. -/
def danglingPrevRows : List Row :=
  [{ id := 1, prev := none, next := some 2, pos := 1, key := none },
   { id := 2, prev := some 77, next := none, pos := 2, key := none }]

/-- A group whose head carries a dangling `next_id` reference (`99` is no
row's id). -/
def danglingNextRows : List Row :=
  [{ id := 1, prev := none, next := some 99, pos := 1, key := none },
   { id := 2, prev := some 1, next := none, pos := 2, key := none }]

/-- A group whose first-by-position row has a stale non-NULL `prev_id`. -/
def staleFirstRows : List Row :=
  [{ id := 1, prev := some 99, next := none, pos := 1, key := none },
   { id := 2, prev := none, next := none, pos := 2, key := none }]

/-- A properly linked chain of 255 rows (`1 → 2 → ⋯ → 255`), listed in chain
order. -/
def bigRows : List Row :=
  (List.range 255).map (fun k =>
    { id := k + 1,
      prev := if k = 0 then none else some k,
      next := if k = 254 then none else some (k + 2),
      pos := (k : Int),
      key := none })

/-- Modelled from the spec: the initial bulk-assignment key formula as the
spec words it — usable range `R = A - 2 = 254`, key
`round((i + 1) / (L + 1) * R) + 1` for the node at 0-indexed position `i` of a
sequence of length `L`.  Written only to compare against the code's formula. -/
def specInitialKey (i L : Nat) : Nat :=
  pyRoundNat ((i + 1) * 254) (L + 1) + 1

/-- The key formula the code actually computes for position `i` of a walked
sequence of length `L`: `round((i + 1) / (L + 1) * 255)`, over the full byte
span, with no `+ 1` offset and no reserved guard values. -/
def codeInitialKey (i L : Nat) : Nat :=
  pyRoundNat ((i + 1) * 255) (L + 1)

/-- The image of a chain suffix under the link writes, relative to the
original predecessor row `a`: each row gets `prev_id` of its predecessor and
`next_id` of its successor; the last row's `next_id` is left as it was.
This is a proof-side characterization of what `conv_galleries.py`'s write
loops produce, established by `linked_realizes`. -/
def nextIdOf (fallback : Option Nat) : List Row → Option Nat
  | [] => fallback
  | c :: _ => some c.id

/-- See `nextIdOf` above: the successor link a row receives, or its old value
at the end of the chain. -/
def linkedFrom : Row → List Row → List Row
  | _, [] => []
  | a, b :: rest =>
    { b with prev := some a.id, next := nextIdOf b.next rest } :: linkedFrom b rest

/-- The image of a whole sorted group under the link writes: the first row's
`prev_id` and the last row's `next_id` are left untouched, every adjacent
pair is doubly linked. -/
def linked : List Row → List Row
  | [] => []
  | a :: rest =>
    { a with next := nextIdOf a.next rest } :: linkedFrom a rest

/-! ### Basic facts about the rounding formula and key lists -/

/-- Rounding down bound: `pyRoundNat num den ≥ num/den - 1/2` (cleared of
denominators). -/
theorem pyRoundNat_lower (num den : Nat) (hden : 0 < den) :
    2 * num ≤ 2 * den * pyRoundNat num den + den := by
  have hqr : den * (num / den) + num % den = num := Nat.div_add_mod num den
  have hrlt : num % den < den := Nat.mod_lt _ hden
  unfold pyRoundNat
  generalize num / den = q at *
  generalize num % den = r at *
  split
  · linarith
  · split
    · linarith
    · split <;> linarith

/-- Rounding upper bound: `pyRoundNat num den ≤ num/den + 1/2` (cleared of
denominators). -/
theorem pyRoundNat_upper (num den : Nat) (hden : 0 < den) :
    2 * den * pyRoundNat num den ≤ 2 * num + den := by
  have hqr : den * (num / den) + num % den = num := Nat.div_add_mod num den
  have hrlt : num % den < den := Nat.mod_lt _ hden
  unfold pyRoundNat
  generalize num / den = q at *
  generalize num % den = r at *
  split
  · linarith
  · split
    · linarith
    · split <;> linarith

/-- Exact division needs no rounding. -/
theorem pyRoundNat_exact (num den : Nat) (hden : 0 < den) (h : num % den = 0) :
    pyRoundNat num den = num / den := by
  unfold pyRoundNat
  rw [h]
  simp [hden]

/-- The code's per-position keys are strictly increasing whenever the slot
count is at most `255` (i.e. the walked sequence has at most 254 rows): the
true spacing then exceeds one key unit, which survives rounding. -/
theorem codeInitialKey_strictMono (i L : Nat) (hL : L ≤ 254) (hi : i + 1 < L) :
    codeInitialKey i L < codeInitialKey (i + 1) L := by
  unfold codeInitialKey
  rcases Nat.lt_or_ge L 254 with hlt | hge
  · -- den = L + 1 < 255: spacing strictly greater than one unit
    have hden : 0 < L + 1 := Nat.succ_pos L
    have h1 := pyRoundNat_upper ((i + 1) * 255) (L + 1) hden
    have h2 := pyRoundNat_lower ((i + 1 + 1) * 255) (L + 1) hden
    have hmul : 2 * (L + 1) * pyRoundNat ((i + 1) * 255) (L + 1) <
        2 * (L + 1) * pyRoundNat ((i + 1 + 1) * 255) (L + 1) := by nlinarith
    exact Nat.lt_of_mul_lt_mul_left hmul
  · -- den = 255 exactly: every value is an exact integer
    have hL254 : L = 254 := Nat.le_antisymm hL hge
    subst hL254
    have h255 : (254 : Nat) + 1 = 255 := rfl
    rw [h255]
    have e1 : pyRoundNat ((i + 1) * 255) 255 = i + 1 := by
      rw [pyRoundNat_exact _ _ (by omega) (Nat.mul_mod_left _ _)]
      exact Nat.mul_div_cancel _ (by omega)
    have e2 : pyRoundNat ((i + 1 + 1) * 255) 255 = i + 1 + 1 := by
      rw [pyRoundNat_exact _ _ (by omega) (Nat.mul_mod_left _ _)]
      exact Nat.mul_div_cancel _ (by omega)
    omega

/-- Single-byte keys compare by value. -/
theorem bytesLtB_single {a b : Nat} (h : a < b) : bytesLtB [a] [b] = true := by
  simp [bytesLtB, h]

/-- `spacerKeys` has one entry per walked row. -/
theorem spacerKeys_length (g : List Row) : (spacerKeys g).length = g.length := by
  simp [spacerKeys, List.enum]

/-- Pairwise strictness of an indexed key family transported along
`enumFrom`. -/
theorem strictKeys_enumFrom (key : Nat → List Nat) :
    ∀ (l : List Row) (i : Nat),
      (∀ j, i ≤ j → j + 1 < i + l.length → bytesLtB (key j) (key (j + 1)) = true) →
      strictKeys ((List.enumFrom i l).map (fun p => key p.1)) = true
  | [], _, _ => rfl
  | [_], _, _ => rfl
  | a :: b :: rest, i, h => by
    have htail := strictKeys_enumFrom key (b :: rest) (i + 1)
      (fun j hj hlt => h j (Nat.le_of_succ_le hj)
        (by simp only [List.length_cons] at hlt ⊢; omega))
    have hhead : bytesLtB (key i) (key (i + 1)) = true :=
      h i (Nat.le_refl i) (by simp only [List.length_cons]; omega)
    simp only [List.enumFrom, List.map] at htail ⊢
    rw [strictKeys, hhead, htail, Bool.and_self]

/-- The key list a walked sequence receives is strictly increasing whenever
the sequence has at most 254 rows. -/
theorem strict_spacerKeys (g : List Row) (hg : g.length ≤ 254) :
    strictKeys ((spacerKeys g).map Prod.fst) = true := by
  unfold spacerKeys
  rw [List.map_map]
  exact strictKeys_enumFrom (fun j => [codeInitialKey j g.length]) g 0
    (fun j _ hlt =>
      bytesLtB_single (codeInitialKey_strictMono j g.length hg (by omega)))

set_option maxRecDepth 400000 in
/-- C1 (counterexample): on a well-formed, fully linked chain of 255 rows the
run completes and writes its keys, but the written key sequence is not
strictly increasing — positions 127 and 128 both receive the byte key
`[128]`, so the claim "the sort_key values KeySpacer writes are strictly
increasing / it never writes two equal keys" is false for this processed
group. -/
theorem C1_counterexample :
    isOkRun (idToSeqGroup bigRows 256) = true ∧
    strictKeys (runKeys (idToSeqGroup bigRows 256)) = false := by
  constructor <;> rfl

/-- C1 (amended): the keys `id_to_seq.py` writes for a walked sequence are
strictly increasing under byte-lexicographic comparison whenever the sequence
has at most 254 rows; for longer sequences the script silently writes
duplicate keys (see the counterexample) — it has no widening or
`KeySpaceExhausted` path. -/
theorem C1_keys_strictly_increasing (rows : List Row) (fuel : Nat)
    (l : List (List Nat × Nat)) (hrun : idToSeqGroup rows fuel = some (Except.ok l))
    (hlen : l.length ≤ 254) :
    strictKeys (l.map Prod.fst) = true := by
  unfold idToSeqGroup at hrun
  cases hw : chainWalkGroup rows fuel with
  | none => rw [hw] at hrun; exact Option.noConfusion hrun
  | some res =>
    rw [hw] at hrun
    cases res with
    | error e => simp at hrun
    | ok glist =>
      simp only [Option.some.injEq] at hrun
      have hl : spacerKeys glist = l := by
        have := hrun
        injection this
      subst hl
      exact strict_spacerKeys glist (by rw [spacerKeys_length] at hlen; omega)

/-- C1 (witness): the amended theorem applied to the 3-chain run. -/
theorem C1_keys_strictly_increasing_witness :
    strictKeys ([([64], 1), ([128], 2), ([191], 3)].map
      (Prod.fst (α := List Nat) (β := Nat))) = true :=
  C1_keys_strictly_increasing threeChain 4 _ rfl (by decide)

/-- Entry `i` of the key computation: row `i` of the walked sequence gets the
single-byte key `round((i+1)/(L+1)*255)` paired with its `gallery_id`. -/
theorem spacerKeys_getElem (g : List Row) (i : Nat) :
    (spacerKeys g)[i]? = g[i]?.map (fun r => ([codeInitialKey i g.length], r.id)) := by
  unfold spacerKeys codeInitialKey
  rw [show g.enum = List.enumFrom 0 g from rfl]
  rw [List.getElem?_map, List.getElem?_enumFrom]
  cases g[i]? <;> simp

/-- C2 (counterexample): on a 3-chain the run writes byte keys
`[64], [128], [191]`, but the spec's formula `round((i+1)/(L+1)*254) + 1`
yields `65` for the first position, so the claimed formula (usable range
`R = 254` with a `+ 1` offset) is not the one the code computes. -/
theorem C2_counterexample :
    runKeys (idToSeqGroup threeChain 4) = [[64], [128], [191]] ∧
    specInitialKey 0 3 = 65 ∧
    (runKeys (idToSeqGroup threeChain 4)).head? ≠ some [specInitialKey 0 3] := by
  refine ⟨rfl, rfl, ?_⟩
  decide

/-- C2 (amended): for every walked sequence of length `L`, the node at
0-indexed position `i` receives the single-byte key
`round((i+1)/(L+1)*255)` — computed over the full byte span with no `+ 1`
offset and no reserved guard values — and for `L = 3` the keys written by the
run are exactly `[64], [128], [191]`. -/
theorem C2_initial_keys :
    (∀ (g : List Row) (i : Nat),
        (spacerKeys g)[i]? = g[i]?.map (fun r => ([codeInitialKey i g.length], r.id))) ∧
    runKeys (idToSeqGroup threeChain 4) = [[64], [128], [191]] :=
  ⟨spacerKeys_getElem, rfl⟩

/-- C3 (counterexample): `twoHeadRows` has two rows with `prev_id = NULL` and
`noHeadRows` has none, yet `id_to_seq.py` completes both groups successfully
and writes keys — it reports neither `MultipleHeads` nor `NoHeadFound`, and
its start row comes from the `ORDER BY prev_id NULLS FIRST` heuristic rather
than an explicit uniqueness-checked scan. -/
theorem C3_counterexample :
    (twoHeadRows.filter (fun r => r.prev == none)).length = 2 ∧
    idToSeqGroup twoHeadRows 4 = some (Except.ok [([85], 1), ([170], 2)]) ∧
    (noHeadRows.filter (fun r => r.prev == none)).length = 0 ∧
    idToSeqGroup noHeadRows 4 = some (Except.ok [([128], 5)]) :=
  ⟨rfl, rfl, rfl, rfl⟩

/-- C4 (counterexample): `cycRows` is a two-row group whose `next_id`
references form a cycle reachable from the walk's start; after 10 loop
iterations (far beyond the claimed `|group| = 2` step bound) the walk is
still running — it neither terminates nor reports any `CycleDetected`
error. -/
theorem C4_counterexample :
    cycRows.length = 2 ∧ idToSeqGroup cycRows 10 = none :=
  ⟨rfl, rfl⟩

/-- C5 (counterexample): `orphanRows` has three rows but the chain from the
head covers only two; the run nevertheless completes, returning and keying a
2-element sequence instead of failing with `OrphanSubchain`, so
`|output| = |group|` is violated. -/
theorem C5_counterexample :
    orphanRows.length = 3 ∧
    isOkRun (idToSeqGroup orphanRows 4) = true ∧
    (runKeys (idToSeqGroup orphanRows 4)).length = 2 :=
  ⟨rfl, rfl, rfl⟩

/-- C6 (counterexample): in `danglingPrevRows` the second row's `prev_id`
references id 77, which no row of the group carries, yet the run completes
successfully — no `DanglingReference` (nor any other) error is raised. -/
theorem C6_counterexample :
    (danglingPrevRows.map Row.prev).contains (some 77) = true ∧
    (danglingPrevRows.map Row.id).contains 77 = false ∧
    idToSeqGroup danglingPrevRows 4 = some (Except.ok [([85], 1), ([170], 2)]) :=
  ⟨rfl, rfl, rfl⟩

/-- C8 (counterexample): in `staleFirstRows` the first-by-position row (id 1)
enters with a stale `prev_id = 99`; after `conv_galleries.py` runs, its
`prev_id` is still `99`, not `NULL` — the script never assigns
`prev_id = None` to the first node (it simply issues no write for it). -/
theorem C8_counterexample :
    (sortByPos staleFirstRows).head?.map Row.id = some 1 ∧
    (positionLinkerRun staleFirstRows).map Row.prev = [some 99, some 1] ∧
    (some 99 : Option Nat) ≠ none := by
  refine ⟨rfl, rfl, ?_⟩
  decide

/-- C9 (counterexample): `proj_slug` deletes the punctuation characters
rather than turning them into separators, so `slugify("a:b/c  d")` is
`"abc-d"`, not the claimed `"a-b-c-d"`. -/
theorem C9_counterexample :
    proj_slug ("a:b/c  d".data) ≠ "a-b-c-d".data := by decide

/-- C9 (amended): `slugify("a:b/c  d")` returns `"abc-d"`: whitespace runs
become a single hyphen, the fixed punctuation set is deleted outright (not
replaced), hyphen runs collapse, and leading/trailing hyphens are trimmed. -/
theorem C9_slug_example :
    proj_slug ("a:b/c  d".data) = "abc-d".data := by decide

/-! ### Behaviour of the chain walk -/

/-- A successful dict lookup returns a member of `x` carrying the looked-up
id. -/
theorem pyLookup_mem {x : List Row} {j : Nat} {g : Row} (h : pyLookup x j = some g) :
    g ∈ x ∧ g.id = j := by
  unfold pyLookup at h
  refine ⟨List.mem_reverse.mp (List.mem_of_find?_eq_some h), ?_⟩
  have := List.find?_some h
  simpa using this

/-- Walk step: the current row is a tail, the loop exits. -/
theorem walkAux_step_done (x rev : List Row) (cur : Row) (f : Nat)
    (h : cur.next = none) :
    walkAux x rev cur (f + 1) = some (Except.ok ((cur :: rev).reverse)) := by
  show (match cur.next with
    | none => some (Except.ok ((cur :: rev).reverse))
    | some j =>
      match pyLookup x j with
      | none => some (Except.error PyErr.keyError)
      | some g => walkAux x (cur :: rev) g f) = some (Except.ok ((cur :: rev).reverse))
  rw [h]

/-- Walk step: the current row's `next_id` dangles, `m[j]` raises
`KeyError`. -/
theorem walkAux_step_dangle (x rev : List Row) (cur : Row) (f : Nat) (j : Nat)
    (h : cur.next = some j) (hl : pyLookup x j = none) :
    walkAux x rev cur (f + 1) = some (Except.error PyErr.keyError) := by
  show (match cur.next with
    | none => some (Except.ok ((cur :: rev).reverse))
    | some j =>
      match pyLookup x j with
      | none => some (Except.error PyErr.keyError)
      | some g => walkAux x (cur :: rev) g f) = some (Except.error PyErr.keyError)
  rw [h]
  show (match pyLookup x j with
    | none => some (Except.error PyErr.keyError)
    | some g => walkAux x (cur :: rev) g f) = some (Except.error PyErr.keyError)
  rw [hl]

/-- Walk step: the current row's `next_id` resolves, the loop appends and
continues. -/
theorem walkAux_step_go (x rev : List Row) (cur : Row) (f : Nat) (j : Nat) (g : Row)
    (h : cur.next = some j) (hl : pyLookup x j = some g) :
    walkAux x rev cur (f + 1) = walkAux x (cur :: rev) g f := by
  show (match cur.next with
    | none => some (Except.ok ((cur :: rev).reverse))
    | some j =>
      match pyLookup x j with
      | none => some (Except.error PyErr.keyError)
      | some g => walkAux x (cur :: rev) g f) = walkAux x (cur :: rev) g f
  rw [h]
  show (match pyLookup x j with
    | none => some (Except.error PyErr.keyError)
    | some g => walkAux x (cur :: rev) g f) = walkAux x (cur :: rev) g f
  rw [hl]

/-- If `P` is closed under one walk step — every `P`-row has a resolvable
`next_id` leading to another `P`-row — the walk never terminates from a
`P`-row: the `while` loop of `id_to_seq.py` runs forever. -/
theorem walkAux_none_of_closed (x : List Row) (P : Row → Prop)
    (hP : ∀ r, P r → ∃ (j : Nat) (g : Row), r.next = some j ∧ pyLookup x j = some g ∧ P g) :
    ∀ (fuel : Nat) (rev : List Row) (cur : Row), P cur → walkAux x rev cur fuel = none := by
  intro fuel
  induction fuel with
  | zero => intro rev cur _; rfl
  | succ f ih =>
    intro rev cur hcur
    obtain ⟨j, g, hnext, hlook, hPg⟩ := hP cur hcur
    rw [walkAux_step_go x rev cur f j g hnext hlook]
    exact ih (cur :: rev) g hPg

/-- Everything a successful walk returns: a nonempty list of rows drawn from
`x` whose last element is a tail (`next_id = NULL`). -/
theorem walkAux_ok_spec (x : List Row) :
    ∀ (fuel : Nat) (rev : List Row) (cur : Row) (glist : List Row),
      cur ∈ x → (∀ r ∈ rev, r ∈ x) →
      walkAux x rev cur fuel = some (Except.ok glist) →
      (∀ g ∈ glist, g ∈ x) ∧ glist ≠ [] ∧
        ∃ lastR, glist.getLast? = some lastR ∧ lastR.next = none := by
  intro fuel
  induction fuel with
  | zero => intro rev cur glist _ _ h; exact Option.noConfusion h
  | succ f ih =>
    intro rev cur glist hcur hrev hrun
    cases hnext : cur.next with
    | none =>
      rw [walkAux_step_done x rev cur f hnext] at hrun
      simp only [Option.some.injEq, Except.ok.injEq] at hrun
      subst hrun
      refine ⟨?_, by simp, ?_⟩
      · intro g hg
        rcases List.mem_cons.mp (List.mem_reverse.mp hg) with rfl | h2
        · exact hcur
        · exact hrev g h2
      · exact ⟨cur, by simp, hnext⟩
    | some j =>
      cases hlook : pyLookup x j with
      | none =>
        rw [walkAux_step_dangle x rev cur f j hnext hlook] at hrun
        simp at hrun
      | some g =>
        rw [walkAux_step_go x rev cur f j g hnext hlook] at hrun
        refine ih (cur :: rev) g glist (pyLookup_mem hlook).1 ?_ hrun
        intro r hr
        rcases List.mem_cons.mp hr with rfl | h2
        · exact hcur
        · exact hrev r h2

/-- The only exception the walk loop itself can raise is `KeyError`, and only
because some row's `next_id` was followed to an id absent from the group. -/
theorem walkAux_error_spec (x : List Row) :
    ∀ (fuel : Nat) (rev : List Row) (cur : Row) (e : PyErr),
      walkAux x rev cur fuel = some (Except.error e) →
      e = PyErr.keyError ∧ ∃ (r : Row) (j : Nat), r.next = some j ∧ pyLookup x j = none := by
  intro fuel
  induction fuel with
  | zero => intro rev cur e h; exact Option.noConfusion h
  | succ f ih =>
    intro rev cur e hrun
    cases hnext : cur.next with
    | none =>
      rw [walkAux_step_done x rev cur f hnext] at hrun
      simp at hrun
    | some j =>
      cases hlook : pyLookup x j with
      | none =>
        rw [walkAux_step_dangle x rev cur f j hnext hlook] at hrun
        simp only [Option.some.injEq, Except.error.injEq] at hrun
        exact ⟨hrun.symm, cur, j, hnext, hlook⟩
      | some g =>
        rw [walkAux_step_go x rev cur f j g hnext hlook] at hrun
        exact ih (cur :: rev) g e hrun

/-- The head of the `prev_id NULLS FIRST` sort is minimal for that order
among all rows of the group. -/
theorem sortByPrev_head_min (rows : List Row) (h : Row)
    (hh : (sortByPrev rows).head? = some h) :
    ∀ r ∈ rows, optNatLe h.prev r.prev := by
  have hs : List.Sorted prevLe (sortByPrev rows) := List.sorted_insertionSort prevLe rows
  have hp : List.Perm (sortByPrev rows) rows := List.perm_insertionSort prevLe rows
  intro r hr
  have hr' : r ∈ sortByPrev rows := hp.mem_iff.mpr hr
  cases hx : sortByPrev rows with
  | nil => rw [hx] at hh; exact Option.noConfusion hh
  | cons a t =>
    rw [hx] at hh hr' hs
    have ha : a = h := by simpa using hh
    subst ha
    rcases List.mem_cons.mp hr' with rfl | hrt
    · cases r.prev with
      | none => exact trivial
      | some v => exact Nat.le_refl v
    · exact List.rel_of_sorted_cons hs r hrt

/-- `optNatLe x none` forces `x = none`: NULL is strictly first. -/
theorem optNatLe_none : ∀ {x : Option Nat}, optNatLe x none → x = none
  | none, _ => rfl
  | some _, h => h.elim

/-- Reduction: a nonempty sorted group starts the walk at the sorted head. -/
theorem chainWalkGroup_cons (rows : List Row) (h : Row) (t : List Row) (fuel : Nat)
    (hx : sortByPrev rows = h :: t) :
    chainWalkGroup rows fuel = walkAux (h :: t) [] h fuel := by
  unfold chainWalkGroup
  rw [hx]

/-- Reduction: a still-running walk keeps the whole group run unfinished. -/
theorem idToSeqGroup_none (rows : List Row) (fuel : Nat)
    (h : chainWalkGroup rows fuel = none) : idToSeqGroup rows fuel = none := by
  unfold idToSeqGroup
  rw [h]

/-- Reduction: a walk exception propagates out of the group run. -/
theorem idToSeqGroup_error (rows : List Row) (fuel : Nat) (e : PyErr)
    (h : chainWalkGroup rows fuel = some (Except.error e)) :
    idToSeqGroup rows fuel = some (Except.error e) := by
  unfold idToSeqGroup
  rw [h]

/-- Reduction: a finished walk feeds the key computation. -/
theorem idToSeqGroup_ok (rows : List Row) (fuel : Nat) (glist : List Row)
    (h : chainWalkGroup rows fuel = some (Except.ok glist)) :
    idToSeqGroup rows fuel = some (Except.ok (spacerKeys glist)) := by
  unfold idToSeqGroup
  rw [h]

/-- C3 (amended): the walk's start row is whatever comes first under
`ORDER BY prev_id NULLS FIRST` — a storage-level ordering heuristic, not a
uniqueness-checked scan.  The start row is minimal for that order (so it has
`prev_id = NULL` whenever any row of the group does), zero or multiple
NULL-`prev_id` rows are not detected as errors (see the counterexample), and
an empty group raises `IndexError` from `x[0]` — a case the surrounding
`SELECT DISTINCT project_id` query cannot actually produce. -/
theorem C3_head_from_sort_order :
    (∀ (rows : List Row) (h : Row), (sortByPrev rows).head? = some h →
        (∀ r ∈ rows, optNatLe h.prev r.prev) ∧
        ((∃ r ∈ rows, r.prev = none) → h.prev = none)) ∧
    (∀ (rows : List Row) (h : Row) (t : List Row) (fuel : Nat),
        sortByPrev rows = h :: t →
        chainWalkGroup rows fuel = walkAux (h :: t) [] h fuel) ∧
    idToSeqGroup ([] : List Row) 1 = some (Except.error PyErr.indexError) := by
  refine ⟨?_, ?_, rfl⟩
  · intro rows h hh
    have hmin := sortByPrev_head_min rows h hh
    refine ⟨hmin, ?_⟩
    rintro ⟨r, hr, hrprev⟩
    have := hmin r hr
    rw [hrprev] at this
    exact optNatLe_none this
  · intro rows h t fuel hx
    unfold chainWalkGroup
    rw [hx]

/-- C3 (witness): applied to the 3-chain, whose sorted head is row 1. -/
theorem C3_head_from_sort_order_witness :
    ({ id := 1, prev := none, next := some 2, pos := 1, key := none } : Row).prev = none :=
  (C3_head_from_sort_order.1 threeChain _ rfl).2
    ⟨{ id := 1, prev := none, next := some 2, pos := 1, key := none }, by decide, rfl⟩

/-- C4 (amended): for every group whose `next_id` references, starting from
the walk's start row, stay inside a set of rows that all have resolvable
`next_id` links (in particular, for every cycle reachable from the start),
the walk never terminates: `id_to_seq.py` loops forever, with no
`CycleDetected` report and no step bound. -/
theorem C4_cycle_loops_forever (rows : List Row) (P : Row → Prop)
    (hP : ∀ r, P r →
      ∃ (j : Nat) (g : Row), r.next = some j ∧ pyLookup (sortByPrev rows) j = some g ∧ P g)
    (h : Row) (t : List Row) (hx : sortByPrev rows = h :: t) (hPh : P h) (fuel : Nat) :
    idToSeqGroup rows fuel = none := by
  have hwalk : walkAux (sortByPrev rows) [] h fuel = none :=
    walkAux_none_of_closed (sortByPrev rows) P hP fuel [] h hPh
  rw [hx] at hwalk
  have hcw := chainWalkGroup_cons rows h t fuel hx
  rw [hwalk] at hcw
  exact idToSeqGroup_none rows fuel hcw

/-- C4 (witness): the amended theorem applied to the concrete 2-cycle. -/
theorem C4_cycle_loops_forever_witness : idToSeqGroup cycRows 5 = none :=
  C4_cycle_loops_forever cycRows
    (fun r => r = { id := 1, prev := some 2, next := some 2, pos := 1, key := none } ∨
              r = { id := 2, prev := some 1, next := some 1, pos := 2, key := none })
    (fun r hr =>
      hr.elim
        (fun h1 =>
          ⟨2, { id := 2, prev := some 1, next := some 1, pos := 2, key := none },
            by rw [h1], rfl, Or.inr rfl⟩)
        (fun h2 =>
          ⟨1, { id := 1, prev := some 2, next := some 2, pos := 1, key := none },
            by rw [h2], rfl, Or.inl rfl⟩))
    { id := 2, prev := some 1, next := some 1, pos := 2, key := none }
    [{ id := 1, prev := some 2, next := some 2, pos := 1, key := none }]
    rfl (Or.inr rfl) 5

/-- C5 (amended): a successful walk returns a nonempty sequence of rows of
the group ending at a row with `next_id = NULL`; nothing checks that its
length equals the group size — rows unreachable from the start are silently
skipped and left unkeyed (see the counterexample), with no `OrphanSubchain`
error. -/
theorem C5_walk_output (rows : List Row) (fuel : Nat) (glist : List Row)
    (hrun : chainWalkGroup rows fuel = some (Except.ok glist)) :
    glist ≠ [] ∧ (∀ g ∈ glist, g ∈ rows) ∧
      ∃ lastR, glist.getLast? = some lastR ∧ lastR.next = none := by
  unfold chainWalkGroup at hrun
  cases hx : sortByPrev rows with
  | nil => rw [hx] at hrun; simp at hrun
  | cons h t =>
    rw [hx] at hrun
    have hperm : List.Perm (sortByPrev rows) rows := List.perm_insertionSort prevLe rows
    rw [hx] at hperm
    have hspec := walkAux_ok_spec (h :: t) fuel [] h glist
      (List.mem_cons_self h t) (fun r hr => absurd hr (List.not_mem_nil r)) hrun
    exact ⟨hspec.2.1, fun g hg => hperm.mem_iff.mp (hspec.1 g hg), hspec.2.2⟩

/-- C5 (witness): the amended theorem applied to the orphan group, whose walk
returns only rows 1 and 2 of the 3-row group. -/
theorem C5_walk_output_witness :
    ∃ lastR,
      ([{ id := 1, prev := none, next := some 2, pos := 1, key := none },
        { id := 2, prev := some 1, next := none, pos := 2, key := none }] :
          List Row).getLast? = some lastR ∧ lastR.next = none :=
  (C5_walk_output orphanRows 4 _ rfl).2.2

/-- C6 (amended): the only dangling-reference failure the run can produce is
the `KeyError` raised when the walk follows a `next_id` absent from the
group; a dangling `prev_id`, or a dangling `next_id` on a row the walk never
reaches, is not detected at all — the run can succeed despite it.  There is
no distinct `DanglingReference` error. -/
theorem C6_dangling_behavior :
    (∀ (rows : List Row) (fuel : Nat) (e : PyErr),
        idToSeqGroup rows fuel = some (Except.error e) →
        (e = PyErr.indexError ∧ rows = []) ∨
        (e = PyErr.keyError ∧
          ∃ (r : Row) (j : Nat), r.next = some j ∧ pyLookup (sortByPrev rows) j = none)) ∧
    idToSeqGroup danglingNextRows 4 = some (Except.error PyErr.keyError) ∧
    idToSeqGroup danglingPrevRows 4 = some (Except.ok [([85], 1), ([170], 2)]) := by
  refine ⟨?_, rfl, rfl⟩
  intro rows fuel e hrun
  cases hx : sortByPrev rows with
  | nil =>
    have hcw : chainWalkGroup rows fuel = some (Except.error PyErr.indexError) := by
      unfold chainWalkGroup
      rw [hx]
    rw [idToSeqGroup_error rows fuel _ hcw] at hrun
    simp only [Option.some.injEq, Except.error.injEq] at hrun
    left
    refine ⟨hrun.symm, ?_⟩
    have hp := List.perm_insertionSort prevLe rows
    rw [show List.insertionSort prevLe rows = sortByPrev rows from rfl, hx] at hp
    exact hp.symm.eq_nil
  | cons h t =>
    have hcw := chainWalkGroup_cons rows h t fuel hx
    cases hw : walkAux (h :: t) [] h fuel with
    | none =>
      rw [hw] at hcw
      rw [idToSeqGroup_none rows fuel hcw] at hrun
      exact Option.noConfusion hrun
    | some res =>
      rw [hw] at hcw
      cases res with
      | ok glist =>
        rw [idToSeqGroup_ok rows fuel glist hcw] at hrun
        simp at hrun
      | error e2 =>
        rw [idToSeqGroup_error rows fuel e2 hcw] at hrun
        simp only [Option.some.injEq, Except.error.injEq] at hrun
        right
        have hspec := walkAux_error_spec (h :: t) fuel [] h e2 hw
        exact ⟨hrun ▸ hspec.1, hspec.2⟩

/-- C6 (witness): the error classification applied to the dangling-`next_id`
group. -/
theorem C6_dangling_behavior_witness :
    (PyErr.keyError = PyErr.indexError ∧ danglingNextRows = []) ∨
    (PyErr.keyError = PyErr.keyError ∧
      ∃ (r : Row) (j : Nat),
        r.next = some j ∧ pyLookup (sortByPrev danglingNextRows) j = none) :=
  C6_dangling_behavior.1 danglingNextRows 4 PyErr.keyError rfl

/-! ### Algebra of link writes -/

/-- A write never changes a row's id. -/
theorem applyW1_id (r : Row) (w : Write) : (applyW1 r w).id = r.id := by
  cases w <;> simp only [applyW1] <;> split <;> rfl

/-- A write never changes a row's position. -/
theorem applyW1_pos (r : Row) (w : Write) : (applyW1 r w).pos = r.pos := by
  cases w <;> simp only [applyW1] <;> split <;> rfl

/-- A write never changes a row's sort key. -/
theorem applyW1_key (r : Row) (w : Write) : (applyW1 r w).key = r.key := by
  cases w <;> simp only [applyW1] <;> split <;> rfl

/-- A write whose `WHERE` clause does not match leaves the row unchanged. -/
theorem applyW1_miss (r : Row) (w : Write) (h : w.target ≠ r.id) : applyW1 r w = r := by
  cases w with
  | setNext g v =>
    simp only [Write.target] at h
    simp only [applyW1]
    rw [if_neg (fun hh => h hh.symm)]
  | setPrev g v =>
    simp only [Write.target] at h
    simp only [applyW1]
    rw [if_neg (fun hh => h hh.symm)]

theorem applyWritesRow_cons (r : Row) (w : Write) (ws : List Write) :
    applyWritesRow r (w :: ws) = applyWritesRow (applyW1 r w) ws := rfl

theorem applyWritesRow_append (r : Row) (ws₁ ws₂ : List Write) :
    applyWritesRow r (ws₁ ++ ws₂) = applyWritesRow (applyWritesRow r ws₁) ws₂ := by
  unfold applyWritesRow
  exact List.foldl_append _ _ _ _

/-- A write sequence never changes a row's id. -/
theorem applyWritesRow_id (ws : List Write) : ∀ r : Row, (applyWritesRow r ws).id = r.id := by
  induction ws with
  | nil => intro r; rfl
  | cons w ws ih =>
    intro r
    rw [applyWritesRow_cons, ih (applyW1 r w), applyW1_id]

/-- A write sequence never changes a row's position. -/
theorem applyWritesRow_pos (ws : List Write) : ∀ r : Row, (applyWritesRow r ws).pos = r.pos := by
  induction ws with
  | nil => intro r; rfl
  | cons w ws ih =>
    intro r
    rw [applyWritesRow_cons, ih (applyW1 r w), applyW1_pos]

/-- A write sequence never changes a row's sort key. -/
theorem applyWritesRow_key (ws : List Write) : ∀ r : Row, (applyWritesRow r ws).key = r.key := by
  induction ws with
  | nil => intro r; rfl
  | cons w ws ih =>
    intro r
    rw [applyWritesRow_cons, ih (applyW1 r w), applyW1_key]

/-- A write sequence none of whose targets match leaves the row unchanged. -/
theorem applyWritesRow_miss (ws : List Write) :
    ∀ r : Row, (∀ w ∈ ws, w.target ≠ r.id) → applyWritesRow r ws = r := by
  induction ws with
  | nil => intro r _; rfl
  | cons w ws ih =>
    intro r h
    rw [applyWritesRow_cons, applyW1_miss r w (h w (List.mem_cons_self w ws))]
    exact ih r (fun w' hw' => h w' (List.mem_cons_of_mem w hw'))

/-- Row-major view of a write sequence: `UPDATE`s act independently on each
row of the snapshot. -/
theorem applyWrites_map (ws : List Write) :
    ∀ rows : List Row, applyWrites rows ws = rows.map (fun r => applyWritesRow r ws) := by
  induction ws with
  | nil =>
    intro rows
    show rows = rows.map (fun r => r)
    rw [List.map_id']
  | cons w ws ih =>
    intro rows
    show applyWrites (applyWrite rows w) ws = _
    rw [ih (applyWrite rows w)]
    unfold applyWrite
    rw [List.map_map]
    rfl

/-- Every `next_id` write targets a row of the sorted group. -/
theorem nextWrites_target_mem : ∀ l : List Row, ∀ w ∈ nextWrites l, w.target ∈ l.map Row.id
  | [] => by intro w hw; cases hw
  | [a] => by intro w hw; cases hw
  | a :: b :: rest => by
    intro w hw
    rw [show nextWrites (a :: b :: rest) =
      Write.setNext a.id b.id :: nextWrites (b :: rest) from rfl] at hw
    rcases List.mem_cons.mp hw with rfl | h2
    · exact List.mem_cons_self _ _
    · exact List.mem_cons_of_mem _ (nextWrites_target_mem (b :: rest) w h2)

/-- Every `prev_id` write targets a row of the sorted group's tail. -/
theorem prevWritesFwd_target_mem :
    ∀ l : List Row, ∀ w ∈ prevWritesFwd l, w.target ∈ (l.map Row.id).tail
  | [] => by intro w hw; cases hw
  | [a] => by intro w hw; cases hw
  | a :: b :: rest => by
    intro w hw
    rw [show prevWritesFwd (a :: b :: rest) =
      Write.setPrev b.id a.id :: prevWritesFwd (b :: rest) from rfl] at hw
    rcases List.mem_cons.mp hw with rfl | h2
    · exact List.mem_cons_self _ _
    · exact List.mem_cons_of_mem _ (prevWritesFwd_target_mem (b :: rest) w h2)

/-- Every link write for a group targets a row of the group. -/
theorem linkWrites_target_mem (l : List Row) (w : Write) (hw : w ∈ linkWrites l) :
    w.target ∈ l.map Row.id := by
  unfold linkWrites at hw
  rcases List.mem_append.mp hw with h1 | h2
  · exact nextWrites_target_mem l w h1
  · have := prevWritesFwd_target_mem l w (List.mem_reverse.mp h2)
    exact (List.tail_sublist _).subset this

/-- Splitting off the first link writes of a two-or-more-row group: the first
`next_id` write comes first, the final `prev_id` write comes last. -/
theorem linkWrites_cons (a b : Row) (rest : List Row) :
    linkWrites (a :: b :: rest) =
      Write.setNext a.id b.id :: (linkWrites (b :: rest) ++ [Write.setPrev b.id a.id]) := by
  unfold linkWrites
  rw [show nextWrites (a :: b :: rest) =
    Write.setNext a.id b.id :: nextWrites (b :: rest) from rfl]
  rw [show prevWritesFwd (a :: b :: rest) =
    Write.setPrev b.id a.id :: prevWritesFwd (b :: rest) from rfl]
  rw [List.reverse_cons, List.cons_append, List.append_assoc]

/-- `linkedFrom` keeps ids. -/
theorem linkedFrom_map_id : ∀ (l : List Row) (a : Row),
    (linkedFrom a l).map Row.id = l.map Row.id
  | [], _ => rfl
  | b :: rest, a => by
    rw [show linkedFrom a (b :: rest) =
      { b with prev := some a.id, next := nextIdOf b.next rest } ::
        linkedFrom b rest from rfl]
    rw [List.map_cons, List.map_cons, linkedFrom_map_id rest b]

/-- `linked` keeps ids. -/
theorem linked_map_id : ∀ gi : List Row, (linked gi).map Row.id = gi.map Row.id
  | [] => rfl
  | a :: rest => by
    rw [show linked (a :: rest) =
      { a with next := nextIdOf a.next rest } :: linkedFrom a rest from rfl]
    rw [List.map_cons, List.map_cons, linkedFrom_map_id rest a]

/-- `linkedFrom` keeps id-position pairs. -/
theorem linkedFrom_map_idpos : ∀ (l : List Row) (a : Row),
    (linkedFrom a l).map (fun r => (r.id, r.pos)) = l.map (fun r => (r.id, r.pos))
  | [], _ => rfl
  | b :: rest, a => by
    rw [show linkedFrom a (b :: rest) =
      { b with prev := some a.id, next := nextIdOf b.next rest } ::
        linkedFrom b rest from rfl]
    rw [List.map_cons, List.map_cons, linkedFrom_map_idpos rest b]

/-- `linked` keeps id-position pairs. -/
theorem linked_map_idpos : ∀ gi : List Row,
    (linked gi).map (fun r => (r.id, r.pos)) = gi.map (fun r => (r.id, r.pos))
  | [] => rfl
  | a :: rest => by
    rw [show linked (a :: rest) =
      { a with next := nextIdOf a.next rest } :: linkedFrom a rest from rfl]
    rw [List.map_cons, List.map_cons, linkedFrom_map_idpos rest a]

/-- `linkedFrom` keeps positions. -/
theorem linkedFrom_map_pos : ∀ (l : List Row) (a : Row),
    (linkedFrom a l).map Row.pos = l.map Row.pos
  | [], _ => rfl
  | b :: rest, a => by
    rw [show linkedFrom a (b :: rest) =
      { b with prev := some a.id, next := nextIdOf b.next rest } ::
        linkedFrom b rest from rfl]
    rw [List.map_cons, List.map_cons, linkedFrom_map_pos rest b]

/-- `linked` keeps positions. -/
theorem linked_map_pos : ∀ gi : List Row, (linked gi).map Row.pos = gi.map Row.pos
  | [] => rfl
  | a :: rest => by
    rw [show linked (a :: rest) =
      { a with next := nextIdOf a.next rest } :: linkedFrom a rest from rfl]
    rw [List.map_cons, List.map_cons, linkedFrom_map_pos rest a]

/-- Every row emitted by `linkedFrom` carries a `some` predecessor link. -/
theorem linkedFrom_prev_some : ∀ (l : List Row) (a : Row) (r : Row),
    r ∈ linkedFrom a l → ∃ v, r.prev = some v
  | [], _, r => by intro hr; cases hr
  | b :: rest, a, r => by
    intro hr
    rcases List.mem_cons.mp hr with h1 | h2
    · exact ⟨a.id, by rw [h1]⟩
    · exact linkedFrom_prev_some rest b r h2

/-- Central characterization of `conv_galleries.py`'s writes: on a group with
distinct ids, applying the full write sequence to each row of the sorted
group produces exactly the doubly linked chain `linked gi` — adjacent rows
are linked, the first row's `prev_id` and last row's `next_id` are
untouched. -/
theorem linked_realizes : ∀ gi : List Row, (gi.map Row.id).Nodup →
    gi.map (fun r => applyWritesRow r (linkWrites gi)) = linked gi
  | [], _ => rfl
  | [a], _ => rfl
  | a :: b :: rest, hnd => by
    have hndTail : ((b :: rest).map Row.id).Nodup := by
      rw [List.map_cons] at hnd
      exact hnd.of_cons
    have haNot : a.id ∉ (b :: rest).map Row.id := by
      rw [List.map_cons] at hnd
      exact (List.nodup_cons.mp hnd).1
    rw [linkWrites_cons a b rest, List.map_cons]
    have hhead : applyWritesRow a
        (Write.setNext a.id b.id :: (linkWrites (b :: rest) ++ [Write.setPrev b.id a.id]))
        = { a with next := some b.id } := by
      rw [applyWritesRow_cons]
      have ha1 : applyW1 a (Write.setNext a.id b.id) = { a with next := some b.id } := by
        simp [applyW1]
      rw [ha1]
      apply applyWritesRow_miss
      intro w hw
      show w.target ≠ a.id
      rcases List.mem_append.mp hw with h1 | h2
      · intro hEq
        exact haNot (hEq ▸ linkWrites_target_mem (b :: rest) w h1)
      · have hw2 : w = Write.setPrev b.id a.id := List.mem_singleton.mp h2
        subst hw2
        intro hEq
        have hba : b.id = a.id := hEq
        apply haNot
        rw [List.map_cons, ← hba]
        exact List.mem_cons_self _ _
    have htail : (b :: rest).map (fun r => applyWritesRow r
        (Write.setNext a.id b.id :: (linkWrites (b :: rest) ++ [Write.setPrev b.id a.id])))
        = (linked (b :: rest)).map (fun r => applyW1 r (Write.setPrev b.id a.id)) := by
      rw [← linked_realizes (b :: rest) hndTail, List.map_map]
      apply List.map_congr_left
      intro r hr
      show applyWritesRow r
          (Write.setNext a.id b.id :: (linkWrites (b :: rest) ++ [Write.setPrev b.id a.id]))
        = applyW1 (applyWritesRow r (linkWrites (b :: rest))) (Write.setPrev b.id a.id)
      rw [applyWritesRow_cons]
      have hrid : r.id ≠ a.id := by
        intro hEq
        exact haNot (hEq ▸ List.mem_map_of_mem Row.id hr)
      rw [applyW1_miss r (Write.setNext a.id b.id) (fun hh => hrid hh.symm)]
      rw [applyWritesRow_append]
      rfl
    have hstep : (linked (b :: rest)).map (fun r => applyW1 r (Write.setPrev b.id a.id))
        = linkedFrom a (b :: rest) := by
      rw [show linked (b :: rest) =
        { b with next := nextIdOf b.next rest } :: linkedFrom b rest from rfl]
      rw [List.map_cons]
      have hb1 : applyW1
          ({ b with next := nextIdOf b.next rest } : Row)
          (Write.setPrev b.id a.id)
          = { b with prev := some a.id, next := nextIdOf b.next rest } := by
        simp [applyW1]
      have hrestmap : (linkedFrom b rest).map (fun r => applyW1 r (Write.setPrev b.id a.id))
          = linkedFrom b rest := by
        have hpt : ∀ r ∈ linkedFrom b rest, applyW1 r (Write.setPrev b.id a.id) = r := by
          intro r hr
          apply applyW1_miss
          show b.id ≠ r.id
          intro hEq
          have hmem : r.id ∈ rest.map Row.id := by
            rw [← linkedFrom_map_id rest b]
            exact List.mem_map_of_mem Row.id hr
          rw [List.map_cons] at hndTail
          exact (List.nodup_cons.mp hndTail).1 (hEq ▸ hmem)
        rw [List.map_congr_left hpt, List.map_id']
      rw [hb1, hrestmap]
      rfl
    rw [hhead, htail, hstep]
    rfl

/-- `conv_galleries.py`'s output snapshot is, up to row storage order, the
doubly linked chain of the position-sorted group. -/
theorem positionLinkerRun_perm_linked (rows : List Row) (hnd : (rows.map Row.id).Nodup) :
    List.Perm (positionLinkerRun rows) (linked (sortByPos rows)) := by
  unfold positionLinkerRun convWrites
  rw [applyWrites_map]
  have hperm : List.Perm rows (sortByPos rows) := (List.perm_insertionSort posLe rows).symm
  have hnd' : ((sortByPos rows).map Row.id).Nodup :=
    ((hperm.map Row.id).nodup_iff).mp hnd
  have := hperm.map (fun r => applyWritesRow r (linkWrites (sortByPos rows)))
  rw [linked_realizes (sortByPos rows) hnd'] at this
  exact this

/-- The rows produced by `linkedFrom` are chained: each points forward to the
next and backward to the one before. -/
theorem linkedFrom_chain : ∀ (l : List Row) (a : Row),
    List.Chain' (fun p q => p.next = some q.id ∧ q.prev = some p.id) (linkedFrom a l)
  | [], _ => List.chain'_nil
  | [b], a => List.chain'_singleton _
  | b :: c :: rest, a => by
    show List.Chain' (fun p q => p.next = some q.id ∧ q.prev = some p.id)
      ({ b with prev := some a.id, next := nextIdOf b.next (c :: rest) } ::
        { c with prev := some b.id, next := nextIdOf c.next rest } :: linkedFrom c rest)
    rw [List.chain'_cons]
    exact ⟨⟨rfl, rfl⟩, linkedFrom_chain (c :: rest) b⟩

/-- The whole linked group is chained. -/
theorem linked_chain : ∀ gi : List Row,
    List.Chain' (fun p q => p.next = some q.id ∧ q.prev = some p.id) (linked gi)
  | [] => List.chain'_nil
  | [a] => List.chain'_singleton _
  | a :: b :: rest => by
    show List.Chain' (fun p q => p.next = some q.id ∧ q.prev = some p.id)
      ({ a with next := nextIdOf a.next (b :: rest) } ::
        { b with prev := some a.id, next := nextIdOf b.next rest } :: linkedFrom b rest)
    rw [List.chain'_cons]
    exact ⟨⟨rfl, rfl⟩, linkedFrom_chain (b :: rest) a⟩

/-- Linking leaves the first row's `prev_id` untouched. -/
theorem linked_head_prev : ∀ gi : List Row,
    (linked gi).head?.map Row.prev = gi.head?.map Row.prev
  | [] => rfl
  | _ :: _ => rfl

/-- Linking leaves the last row's `next_id` untouched (suffix version). -/
theorem linkedFrom_getLast_next : ∀ (l : List Row) (a : Row), l ≠ [] →
    (linkedFrom a l).getLast?.map Row.next = l.getLast?.map Row.next
  | [], _, h => absurd rfl h
  | [b], _, _ => rfl
  | b :: c :: rest, a, _ => by
    rw [show linkedFrom a (b :: c :: rest) =
      { b with prev := some a.id, next := nextIdOf b.next (c :: rest) } ::
        { c with prev := some b.id, next := nextIdOf c.next rest } :: linkedFrom c rest from rfl]
    rw [List.getLast?_cons_cons]
    rw [show ({ c with prev := some b.id, next := nextIdOf c.next rest } : Row) ::
      linkedFrom c rest = linkedFrom b (c :: rest) from rfl]
    rw [linkedFrom_getLast_next (c :: rest) b (by simp)]
    rw [List.getLast?_cons_cons]

/-- Linking leaves the last row's `next_id` untouched. -/
theorem linked_getLast_next : ∀ gi : List Row,
    (linked gi).getLast?.map Row.next = gi.getLast?.map Row.next
  | [] => rfl
  | [a] => rfl
  | a :: b :: rest => by
    rw [show linked (a :: b :: rest) =
      { a with next := nextIdOf a.next (b :: rest) } ::
        { b with prev := some a.id, next := nextIdOf b.next rest } :: linkedFrom b rest from rfl]
    rw [List.getLast?_cons_cons]
    rw [show ({ b with prev := some a.id, next := nextIdOf b.next rest } : Row) ::
      linkedFrom b rest = linkedFrom a (b :: rest) from rfl]
    rw [linkedFrom_getLast_next (b :: rest) a (by simp)]
    rw [List.getLast?_cons_cons]

/-- The last row's id survives linking. -/
theorem linked_getLast_id (gi : List Row) :
    (linked gi).getLast?.map Row.id = gi.getLast?.map Row.id := by
  rw [← List.getLast?_map, linked_map_id gi, List.getLast?_map]

/-- Chain length survives linking. -/
theorem linked_length (gi : List Row) : (linked gi).length = gi.length := by
  have := congrArg List.length (linked_map_id gi)
  rwa [List.length_map, List.length_map] at this

/-- Strengthening a chain relation using membership of both endpoints. -/
theorem chain'_imp_mem {α : Type} {R S : α → α → Prop} :
    ∀ l : List α, List.Chain' R l →
      (∀ p q, p ∈ l → q ∈ l → R p q → S p q) → List.Chain' S l
  | [], _, _ => List.chain'_nil
  | [a], _, _ => List.chain'_singleton a
  | a :: b :: rest, hc, himp => by
    rw [List.chain'_cons] at hc ⊢
    refine ⟨himp a b (List.mem_cons_self _ _)
      (List.mem_cons_of_mem _ (List.mem_cons_self _ _)) hc.1, ?_⟩
    exact chain'_imp_mem (b :: rest) hc.2
      (fun p q hp hq => himp p q (List.mem_cons_of_mem _ hp) (List.mem_cons_of_mem _ hq))

/-- `find?` by id on an id-distinct list locates exactly the member. -/
theorem find?_id_unique : ∀ l : List Row, (l.map Row.id).Nodup →
    ∀ r ∈ l, l.find? (fun g => g.id == r.id) = some r
  | [], _, r, hr => absurd hr (List.not_mem_nil r)
  | a :: tl, hnd, r, hr => by
    rw [List.map_cons] at hnd
    rcases List.mem_cons.mp hr with rfl | h2
    · exact List.find?_cons_of_pos tl (by simp)
    · rw [List.find?_cons_of_neg tl ?_, find?_id_unique tl hnd.of_cons r h2]
      intro hEq
      have ha : a.id = r.id := by simpa using hEq
      exact (List.nodup_cons.mp hnd).1 (ha ▸ List.mem_map_of_mem Row.id h2)

/-- On an id-distinct group the dict lookup finds exactly the member row. -/
theorem pyLookup_of_nodup (x : List Row) (hx : (x.map Row.id).Nodup) {r : Row} (hr : r ∈ x) :
    pyLookup x r.id = some r := by
  unfold pyLookup
  refine find?_id_unique x.reverse ?_ r (List.mem_reverse.mpr hr)
  rw [List.map_reverse]
  exact (List.nodup_reverse).mpr hx

/-- Walking a fully resolvable chain: if adjacent rows are linked and each
successor is found by the dict lookup, and the chain ends at a tail, the walk
returns exactly the chain (appended to what was already accumulated). -/
theorem walkAux_of_chain (x : List Row) :
    ∀ (chain rev : List Row) (h : Row) (fuel : Nat),
      chain.head? = some h →
      List.Chain' (fun p q => p.next = some q.id ∧ pyLookup x q.id = some q) chain →
      (∃ lastR, chain.getLast? = some lastR ∧ lastR.next = none) →
      chain.length ≤ fuel →
      walkAux x rev h fuel = some (Except.ok (rev.reverse ++ chain))
  | [], _, h, _, hh, _, _, _ => Option.noConfusion hh
  | [c], rev, h, fuel, hh, _, hlast, hlen => by
    have hc : c = h := by simpa using hh
    subst hc
    obtain ⟨lastR, hl, hln⟩ := hlast
    have hlc : c = lastR := by simpa using hl
    subst hlc
    cases fuel with
    | zero => exact absurd hlen (by simp)
    | succ f =>
      rw [walkAux_step_done x rev c f hln, List.reverse_cons]
  | c :: d :: rest, rev, h, fuel, hh, hchain, hlast, hlen => by
    have hc : c = h := by simpa using hh
    subst hc
    rw [List.chain'_cons] at hchain
    obtain ⟨⟨hnext, hlook⟩, hchain2⟩ := hchain
    cases fuel with
    | zero => exact absurd hlen (by simp)
    | succ f =>
      rw [walkAux_step_go x rev c f d.id d hnext hlook]
      have hlast2 : ∃ lastR, (d :: rest).getLast? = some lastR ∧ lastR.next = none := by
        obtain ⟨lastR, hl, hln⟩ := hlast
        rw [List.getLast?_cons_cons] at hl
        exact ⟨lastR, hl, hln⟩
      have hlen2 : (d :: rest).length ≤ f := by
        simp only [List.length_cons] at hlen ⊢
        omega
      rw [walkAux_of_chain x (d :: rest) (c :: rev) d f rfl hchain2 hlast2 hlen2]
      rw [List.reverse_cons, List.append_assoc]
      rfl

/-- Fresh legacy rows have no links. -/
theorem freshRows_prev {ps : List (Nat × Int)} {r : Row} (hr : r ∈ freshRows ps) :
    r.prev = none := by
  obtain ⟨p, _, rfl⟩ := List.mem_map.mp hr
  rfl

/-- Fresh legacy rows have no links. -/
theorem freshRows_next {ps : List (Nat × Int)} {r : Row} (hr : r ∈ freshRows ps) :
    r.next = none := by
  obtain ⟨p, _, rfl⟩ := List.mem_map.mp hr
  rfl

/-- The ids of the fresh snapshot are the input ids. -/
theorem freshRows_map_id (ps : List (Nat × Int)) :
    (freshRows ps).map Row.id = ps.map Prod.fst := by
  unfold freshRows
  rw [List.map_map]
  rfl

/-- The positions of the fresh snapshot are the input positions. -/
theorem freshRows_map_pos (ps : List (Nat × Int)) :
    (freshRows ps).map Row.pos = ps.map Prod.snd := by
  unfold freshRows
  rw [List.map_map]
  rfl

/-- The id-position pairs of the fresh snapshot are the input pairs. -/
theorem freshRows_map_idpos (ps : List (Nat × Int)) :
    (freshRows ps).map (fun r => (r.id, r.pos)) = ps := by
  unfold freshRows
  rw [List.map_map]
  exact List.map_id' ps

/-- C7: round trip.  For every nonempty set of `(gallery_id, position)` pairs
with distinct ids and distinct positions, linking the fresh rows with
`conv_galleries.py` and then walking them with `id_to_seq.py`'s chain
reconstruction succeeds and returns the rows in ascending-position order: the
output's `(id, position)` pairs are a permutation of the input whose position
column is sorted (and strictly so, by distinctness). -/
theorem C7_roundtrip (ps : List (Nat × Int)) (hne : ps ≠ [])
    (hid : (ps.map Prod.fst).Nodup) (hpos : (ps.map Prod.snd).Nodup) :
    ∃ glist,
      chainWalkGroup (positionLinkerRun (freshRows ps)) ps.length = some (Except.ok glist) ∧
      List.Perm (glist.map (fun r => (r.id, r.pos))) ps ∧
      List.Sorted (fun x y => x ≤ y) (glist.map Row.pos) ∧
      (glist.map Row.pos).Nodup := by
  have hnd0 : ((freshRows ps).map Row.id).Nodup := by
    rw [freshRows_map_id]
    exact hid
  have hgiperm : List.Perm (sortByPos (freshRows ps)) (freshRows ps) :=
    List.perm_insertionSort posLe (freshRows ps)
  have hndgi : ((sortByPos (freshRows ps)).map Row.id).Nodup :=
    ((hgiperm.map Row.id).nodup_iff).mpr hnd0
  have hperm1 : List.Perm (positionLinkerRun (freshRows ps))
      (linked (sortByPos (freshRows ps))) :=
    positionLinkerRun_perm_linked _ hnd0
  have hxperm0 : List.Perm (sortByPrev (positionLinkerRun (freshRows ps)))
      (linked (sortByPos (freshRows ps))) :=
    (List.perm_insertionSort prevLe _).trans hperm1
  have hndlc : ((linked (sortByPos (freshRows ps))).map Row.id).Nodup := by
    rw [linked_map_id]
    exact hndgi
  have hndx : ((sortByPrev (positionLinkerRun (freshRows ps))).map Row.id).Nodup :=
    ((hxperm0.map Row.id).nodup_iff).mpr hndlc
  cases hgi : sortByPos (freshRows ps) with
  | nil =>
    exfalso
    rw [hgi] at hgiperm
    have : freshRows ps = [] := hgiperm.symm.eq_nil
    apply hne
    have := congrArg (List.map (fun r : Row => (r.id, r.pos))) this
    rw [freshRows_map_idpos] at this
    simpa using this
  | cons a rest =>
    have hlcperm : List.Perm (sortByPrev (positionLinkerRun (freshRows ps)))
        (linked (a :: rest)) := by
      rw [← hgi]
      exact hxperm0
    cases hx : sortByPrev (positionLinkerRun (freshRows ps)) with
    | nil =>
      exfalso
      rw [hx] at hlcperm
      have := hlcperm.length_eq
      rw [linked_length] at this
      simp at this
    | cons h t =>
      rw [hx] at hlcperm
      have haMem : a ∈ freshRows ps := by
        refine hgiperm.subset ?_
        rw [hgi]
        exact List.mem_cons_self _ _
      have haprev : a.prev = none := freshRows_prev haMem
      -- the walk's start row is the linked chain's head
      have hhead : h = { a with next := nextIdOf a.next rest } := by
        have hhx : h ∈ linked (a :: rest) := hlcperm.subset (List.mem_cons_self h t)
        have hmin := sortByPrev_head_min (positionLinkerRun (freshRows ps)) h
          (by rw [hx]; rfl)
        have ha'run : ({ a with next := nextIdOf a.next rest } : Row) ∈
            positionLinkerRun (freshRows ps) := by
          apply hperm1.symm.subset
          rw [hgi]
          exact List.mem_cons_self _ _
        have hple := hmin _ ha'run
        rw [show ({ a with next := nextIdOf a.next rest } : Row).prev = a.prev from rfl,
          haprev] at hple
        have hhprev : h.prev = none := optNatLe_none hple
        rcases List.mem_cons.mp hhx with h1 | h2
        · exact h1
        · obtain ⟨v, hv⟩ := linkedFrom_prev_some rest a h h2
          rw [hhprev] at hv
          exact Option.noConfusion hv
      have hchainS : List.Chain' (fun p q => p.next = some q.id ∧
          pyLookup (sortByPrev (positionLinkerRun (freshRows ps))) q.id = some q)
          (linked (a :: rest)) := by
        refine chain'_imp_mem _ (linked_chain (a :: rest)) ?_
        intro p q _ hq hR
        refine ⟨hR.1, ?_⟩
        refine pyLookup_of_nodup _ hndx ?_
        rw [hx]
        exact hlcperm.symm.subset hq
      have hlast : ∃ lastR, (linked (a :: rest)).getLast? = some lastR ∧
          lastR.next = none := by
        have hlastG : (a :: rest).getLast? = some ((a :: rest).getLast (by simp)) :=
          List.getLast?_eq_getLast _ (by simp)
        have hlgMem : (a :: rest).getLast (by simp) ∈ freshRows ps := by
          refine hgiperm.subset ?_
          rw [hgi]
          exact List.getLast_mem _
        have hlgnext : ((a :: rest).getLast (by simp)).next = none := freshRows_next hlgMem
        have hpres := linked_getLast_next (a :: rest)
        rw [hlastG] at hpres
        cases hLR : (linked (a :: rest)).getLast? with
        | none =>
          rw [hLR] at hpres
          exact Option.noConfusion hpres
        | some lastR =>
          rw [hLR] at hpres
          refine ⟨lastR, rfl, ?_⟩
          have : lastR.next = ((a :: rest).getLast (by simp)).next := by
            injection hpres
          rw [this, hlgnext]
      have hheadlc : (linked (a :: rest)).head? = some h := by
        rw [hhead]
        rfl
      have hlen : (linked (a :: rest)).length ≤ ps.length := by
        rw [linked_length]
        have h1 := hgiperm.length_eq
        rw [hgi] at h1
        rw [h1]
        unfold freshRows
        rw [List.length_map]
      refine ⟨linked (a :: rest), ?_, ?_, ?_, ?_⟩
      · rw [chainWalkGroup_cons _ h t _ hx]
        have hwalk := walkAux_of_chain (sortByPrev (positionLinkerRun (freshRows ps)))
          (linked (a :: rest)) [] h ps.length hheadlc hchainS hlast hlen
        rw [hx] at hwalk
        rw [hwalk]
        rfl
      · rw [linked_map_idpos]
        have hstep : List.Perm ((a :: rest).map (fun r => (r.id, r.pos)))
            ((freshRows ps).map (fun r => (r.id, r.pos))) := by
          refine List.Perm.map _ ?_
          rw [← hgi]
          exact hgiperm
        rw [freshRows_map_idpos] at hstep
        exact hstep
      · rw [linked_map_pos]
        have hsort : List.Sorted posLe (sortByPos (freshRows ps)) :=
          List.sorted_insertionSort posLe _
        rw [hgi] at hsort
        exact List.Pairwise.map Row.pos (fun p q hpq => hpq) hsort
      · rw [linked_map_pos]
        have hstep : List.Perm ((a :: rest).map Row.pos) (ps.map Prod.snd) := by
          have h2 : List.Perm ((a :: rest).map Row.pos) ((freshRows ps).map Row.pos) := by
            refine List.Perm.map _ ?_
            rw [← hgi]
            exact hgiperm
          rw [freshRows_map_pos] at h2
          exact h2
        exact (hstep.nodup_iff).mpr hpos

/-- C7 (witness): the round trip applied to the concrete input
`[(1, 2), (2, 1)]` (listed out of order on purpose). -/
theorem C7_roundtrip_witness :
    ∃ glist,
      chainWalkGroup (positionLinkerRun (freshRows [(1, 2), (2, 1)])) 2 =
        some (Except.ok glist) ∧
      List.Perm (glist.map (fun r => (r.id, r.pos))) [(1, 2), (2, 1)] ∧
      List.Sorted (fun x y => x ≤ y) (glist.map Row.pos) ∧
      (glist.map Row.pos).Nodup :=
  C7_roundtrip [(1, 2), (2, 1)] (by decide) (by decide) (by decide)

/-- The ascending loop issues one `next_id` write per adjacent pair. -/
theorem nextWrites_length : ∀ l : List Row, (nextWrites l).length = l.length - 1
  | [] => rfl
  | [_] => rfl
  | a :: b :: rest => by
    rw [show nextWrites (a :: b :: rest) =
      Write.setNext a.id b.id :: nextWrites (b :: rest) from rfl]
    rw [List.length_cons, nextWrites_length (b :: rest)]
    simp

/-- The descending loop issues one `prev_id` write per adjacent pair. -/
theorem prevWritesFwd_length : ∀ l : List Row, (prevWritesFwd l).length = l.length - 1
  | [] => rfl
  | [_] => rfl
  | a :: b :: rest => by
    rw [show prevWritesFwd (a :: b :: rest) =
      Write.setPrev b.id a.id :: prevWritesFwd (b :: rest) from rfl]
    rw [List.length_cons, prevWritesFwd_length (b :: rest)]
    simp

/-- The `next_id` writes target, in order, every row but the last. -/
theorem nextWrites_targets : ∀ l : List Row,
    (nextWrites l).map Write.target = (l.map Row.id).dropLast
  | [] => rfl
  | [_] => rfl
  | a :: b :: rest => by
    rw [show nextWrites (a :: b :: rest) =
      Write.setNext a.id b.id :: nextWrites (b :: rest) from rfl]
    rw [List.map_cons, nextWrites_targets (b :: rest)]
    rw [List.map_cons, List.map_cons, List.map_cons, List.dropLast_cons₂]
    rfl

/-- The forward-listed `prev_id` writes target, in order, every row but the
first. -/
theorem prevWritesFwd_targets : ∀ l : List Row,
    (prevWritesFwd l).map Write.target = (l.map Row.id).tail
  | [] => rfl
  | [_] => rfl
  | a :: b :: rest => by
    rw [show prevWritesFwd (a :: b :: rest) =
      Write.setPrev b.id a.id :: prevWritesFwd (b :: rest) from rfl]
    rw [List.map_cons, prevWritesFwd_targets (b :: rest)]
    rfl

/-- The run preserves the snapshot's id column (row for row). -/
theorem positionLinkerRun_map_id (rows : List Row) :
    (positionLinkerRun rows).map Row.id = rows.map Row.id := by
  unfold positionLinkerRun
  rw [applyWrites_map, List.map_map]
  exact List.map_congr_left (fun r _ => applyWritesRow_id _ r)

/-- The run preserves the snapshot's position column (row for row). -/
theorem positionLinkerRun_map_pos (rows : List Row) :
    (positionLinkerRun rows).map Row.pos = rows.map Row.pos := by
  unfold positionLinkerRun
  rw [applyWrites_map, List.map_map]
  exact List.map_congr_left (fun r _ => applyWritesRow_pos _ r)

/-- The run preserves the snapshot's sort-key column (row for row). -/
theorem positionLinkerRun_map_key (rows : List Row) :
    (positionLinkerRun rows).map Row.key = rows.map Row.key := by
  unfold positionLinkerRun
  rw [applyWrites_map, List.map_map]
  exact List.map_congr_left (fun r _ => applyWritesRow_key _ r)

/-- C8 (amended): `conv_galleries.py` sorts the group ascending by
`position` and links each adjacent pair (`a.next_id := b.id`,
`b.prev_id := a.id`); it does **not** assign `None` to the first row's
`prev_id` or the last row's `next_id` — it issues no write for them at all,
so they retain whatever value they had (`NULL` only for fresh rows); for a
group of zero or one row it writes nothing. -/
theorem C8_linker_behavior (rows : List Row) (hnd : (rows.map Row.id).Nodup) :
    (rows.length ≤ 1 → convWrites rows = []) ∧
    List.Sorted posLe (sortByPos rows) ∧
    List.Perm (positionLinkerRun rows) (linked (sortByPos rows)) ∧
    List.Chain' (fun p q => p.next = some q.id ∧ q.prev = some p.id)
      (linked (sortByPos rows)) ∧
    (linked (sortByPos rows)).head?.map Row.prev = (sortByPos rows).head?.map Row.prev ∧
    (linked (sortByPos rows)).getLast?.map Row.next =
      (sortByPos rows).getLast?.map Row.next := by
  refine ⟨?_, List.sorted_insertionSort posLe rows,
    positionLinkerRun_perm_linked rows hnd, linked_chain _,
    linked_head_prev _, linked_getLast_next _⟩
  intro hlen
  unfold convWrites
  cases hgi : sortByPos rows with
  | nil => rfl
  | cons a tl =>
    cases tl with
    | nil => rfl
    | cons b rest =>
      exfalso
      have hleq := (List.perm_insertionSort posLe rows).length_eq
      rw [show List.insertionSort posLe rows = sortByPos rows from rfl, hgi] at hleq
      rw [← hleq] at hlen
      simp at hlen

/-- C8 (witness): the amended behaviour applied to the two-row group with a
stale first `prev_id`. -/
theorem C8_linker_behavior_witness :
    List.Perm (positionLinkerRun staleFirstRows) (linked (sortByPos staleFirstRows)) ∧
    List.Chain' (fun p q => p.next = some q.id ∧ q.prev = some p.id)
      (linked (sortByPos staleFirstRows)) ∧
    (linked (sortByPos staleFirstRows)).head?.map Row.prev =
      (sortByPos staleFirstRows).head?.map Row.prev :=
  ⟨(C8_linker_behavior staleFirstRows (by decide)).2.2.1,
   (C8_linker_behavior staleFirstRows (by decide)).2.2.2.1,
   (C8_linker_behavior staleFirstRows (by decide)).2.2.2.2.1⟩

/-- C10: frame property of the linker.  On a group of `n ≥ 2` rows with
distinct ids it issues exactly `2·(n−1)` link writes — the `next_id` writes
target, each exactly once, every sorted row but the last, and the `prev_id`
writes target, each exactly once, every sorted row but the first (in reverse
order) — and nothing else changes: every row keeps its id, `position` and
`sort_key`, the first-by-position row keeps its incoming `prev_id`, and the
last-by-position row keeps its incoming `next_id`. -/
theorem C10_frame (rows : List Row) (h2 : 2 ≤ rows.length)
    (hnd : (rows.map Row.id).Nodup) :
    (convWrites rows).length = 2 * (rows.length - 1) ∧
    (nextWrites (sortByPos rows)).map Write.target = ((sortByPos rows).map Row.id).dropLast ∧
    ((prevWritesFwd (sortByPos rows)).reverse).map Write.target =
      (((sortByPos rows).map Row.id).tail).reverse ∧
    (positionLinkerRun rows).map Row.id = rows.map Row.id ∧
    (positionLinkerRun rows).map Row.pos = rows.map Row.pos ∧
    (positionLinkerRun rows).map Row.key = rows.map Row.key ∧
    (∀ h, (sortByPos rows).head? = some h →
      ∀ r ∈ positionLinkerRun rows, r.id = h.id → r.prev = h.prev) ∧
    (∀ tl, (sortByPos rows).getLast? = some tl →
      ∀ r ∈ positionLinkerRun rows, r.id = tl.id → r.next = tl.next) := by
  have hsortlen : (sortByPos rows).length = rows.length :=
    (List.perm_insertionSort posLe rows).length_eq
  have hndgi : ((sortByPos rows).map Row.id).Nodup :=
    (((List.perm_insertionSort posLe rows).map Row.id).nodup_iff).mpr hnd
  have hperm1 := positionLinkerRun_perm_linked rows hnd
  have hndlc : ((linked (sortByPos rows)).map Row.id).Nodup := by
    rw [linked_map_id]
    exact hndgi
  refine ⟨?_, nextWrites_targets _, ?_, positionLinkerRun_map_id rows,
    positionLinkerRun_map_pos rows, positionLinkerRun_map_key rows, ?_, ?_⟩
  · -- write count
    unfold convWrites linkWrites
    rw [List.length_append, List.length_reverse, nextWrites_length, prevWritesFwd_length,
      hsortlen]
    omega
  · rw [List.map_reverse, prevWritesFwd_targets]
  · -- first row's prev_id is untouched
    intro h hh r hr hrid
    have hrlc : r ∈ linked (sortByPos rows) := hperm1.subset hr
    cases hgi : sortByPos rows with
    | nil =>
      rw [hgi] at hh
      exact Option.noConfusion hh
    | cons a tl =>
      rw [hgi] at hh
      have ha : a = h := by simpa using hh
      subst ha
      rw [hgi] at hrlc
      rcases List.mem_cons.mp hrlc with h1 | h2
      · rw [h1]
      · exfalso
        have hmem : r.id ∈ tl.map Row.id := by
          rw [← linkedFrom_map_id tl a]
          exact List.mem_map_of_mem Row.id h2
        rw [hgi, List.map_cons] at hndgi
        exact (List.nodup_cons.mp hndgi).1 (hrid ▸ hmem)
  · -- last row's next_id is untouched
    intro tl htl r hr hrid
    have hrlc : r ∈ linked (sortByPos rows) := hperm1.subset hr
    have hlastnext := linked_getLast_next (sortByPos rows)
    have hlastid := linked_getLast_id (sortByPos rows)
    rw [htl] at hlastnext hlastid
    cases hLR : (linked (sortByPos rows)).getLast? with
    | none =>
      rw [hLR] at hlastnext
      exact Option.noConfusion hlastnext
    | some lastR =>
      rw [hLR] at hlastnext hlastid
      have hlrMem : lastR ∈ linked (sortByPos rows) := List.mem_of_getLast?_eq_some hLR
      have hlrId : lastR.id = tl.id := by injection hlastid
      have hrEq : r = lastR :=
        List.inj_on_of_nodup_map hndlc hrlc hlrMem (by rw [hrid, hlrId])
      have hlrNext : lastR.next = tl.next := by injection hlastnext
      rw [hrEq, hlrNext]

/-- C10 (witness): the frame property applied to a 3-row group carrying stale
links and keys. -/
theorem C10_frame_witness :
    (convWrites [{ id := 1, prev := some 9, next := some 9, pos := 3, key := some [7] },
                 { id := 2, prev := none, next := none, pos := 1, key := none },
                 { id := 3, prev := none, next := none, pos := 2, key := none }]).length =
      2 * (3 - 1) ∧
    (positionLinkerRun [{ id := 1, prev := some 9, next := some 9, pos := 3, key := some [7] },
                        { id := 2, prev := none, next := none, pos := 1, key := none },
                        { id := 3, prev := none, next := none, pos := 2, key := none }]).map
        Row.key =
      [some [7], none, none] :=
  ⟨(C10_frame _ (by decide) (by decide)).1,
   (C10_frame _ (by decide) (by decide)).2.2.2.2.2.1⟩
